import Mathlib

/-!
Shallow embedding of `src/2.Uncertainty/pagerank/pagerank.py`.

Python dictionaries are modelled as association lists in insertion order,
sets as duplicate-free lists, floats as exact rationals (`ℚ`), and
exceptions (`KeyError`, `ZeroDivisionError`, `NotImplementedError`) as an
`Except` error type.  The random source used by `random.choices` is
modelled as an explicit stream of naturals: at each draw the chosen
element is the stream value taken modulo the population size, so every
element of the population (all of which carry positive weight for a
damping factor in (0,1)) is reachable and any concrete run of the Python
program corresponds to some stream.
-/

namespace PageRank

/-- The Python exceptions that the module can raise. -/
inductive PyErr where
  | keyError
  | zeroDivisionError
  | notImplementedError
deriving DecidableEq, Repr

instance {ε α : Type} [DecidableEq ε] [DecidableEq α] : DecidableEq (Except ε α) :=
  fun a b =>
    match a, b with
    | .error e, .error f =>
        if h : e = f then .isTrue (by rw [h])
        else .isFalse (fun hh => h (Except.error.inj hh))
    | .error _, .ok _ => .isFalse (fun hh => Except.noConfusion hh)
    | .ok _, .error _ => .isFalse (fun hh => Except.noConfusion hh)
    | .ok x, .ok y =>
        if h : x = y then .isTrue (by rw [h])
        else .isFalse (fun hh => h (Except.ok.inj hh))

abbrev Page := String

/-- A corpus (`dict` from page to set of linked pages) as an association
list in insertion order; each link set is a duplicate-free list. -/
abbrev Corpus := List (Page × List Page)

/-- The keys of a Python dict, in insertion order. -/
def keys {β : Type} (c : List (Page × β)) : List Page := c.map Prod.fst

/-- `d[k]` on a Python dict: the value at the first matching key. -/
def dictGet {β : Type} : List (Page × β) → Page → Option β
  | [], _ => none
  | kv :: rest, k => if kv.1 = k then some kv.2 else dictGet rest k

/-- `d[k] += 1` on a Python counter dict: raises `KeyError` when `k` is
not a key. -/
def dictIncr : List (Page × ℕ) → Page → Except PyErr (List (Page × ℕ))
  | [], _ => .error .keyError
  | kv :: rest, k =>
      if kv.1 = k then .ok ((kv.1, kv.2 + 1) :: rest)
      else
        match dictIncr rest k with
        | .error e => .error e
        | .ok v => .ok (kv :: v)

/-- The §3 Link Graph invariants together with the dict/set well-formedness
that Python guarantees: keys are unique, each link set is duplicate-free,
every link target is itself a key, and no page links to itself. -/
def ValidCorpus (c : Corpus) : Prop :=
  (keys c).Nodup ∧ ∀ kv ∈ c, kv.2.Nodup ∧ (∀ q ∈ kv.2, q ∈ keys c) ∧ kv.1 ∉ kv.2

instance : DecidablePred ValidCorpus := fun c => by
  unfold ValidCorpus; infer_instance

/-- `transition_model(corpus, page, damping_factor)` from the source:
`corpus[page]` raises `KeyError` when `page` is absent; an empty link set
yields the uniform distribution `1/len(corpus)`; otherwise linked pages
get `damping_factor/len(corpus[page]) + (1-damping_factor)/len(corpus)`
and the remaining corpus pages get `(1-damping_factor)/len(corpus)`,
inserted in that order. -/
def transition_model (corpus : Corpus) (page : Page) (damping_factor : ℚ) :
    Except PyErr (List (Page × ℚ)) :=
  match dictGet corpus page with
  | none => .error .keyError
  | some links =>
      if links.length = 0 then
        .ok ((keys corpus).map (fun w => (w, 1 / (corpus.length : ℚ))))
      else
        let prob_at_random : ℚ := (1 - damping_factor) / (corpus.length : ℚ)
        .ok (links.map
              (fun w => (w, damping_factor / (links.length : ℚ) + prob_at_random)) ++
            ((keys corpus).filter (fun w => decide (w ∉ links))).map
              (fun w => (w, prob_at_random)))

/-- One draw of `random.choices(population, weights, k=1)[0]`: the stream
value at index `i`, reduced modulo the population size, selects the
element. -/
def randomChoice (stream : ℕ → ℕ) (i : ℕ) (pop : List Page) : Page :=
  pop.getD (stream i % pop.length) ""

/-- The sampling loop `for sample in range(n)` of `sample_pagerank`:
`k` remaining iterations, `i` the index into the random stream, `choice`
the current page and `visited` the counter dict.  Each iteration calls
`transition_model`, draws the next page from the returned distribution
and increments its counter. -/
def sampleSteps (corpus : Corpus) (damping_factor : ℚ) (stream : ℕ → ℕ) :
    ℕ → ℕ → Page → List (Page × ℕ) → Except PyErr (List (Page × ℕ))
  | 0, _, _, visited => .ok visited
  | k + 1, i, choice, visited =>
      match transition_model corpus choice damping_factor with
      | .error e => .error e
      | .ok prob =>
          let c := randomChoice stream i (prob.map Prod.fst)
          match dictIncr visited c with
          | .error e => .error e
          | .ok v => sampleSteps corpus damping_factor stream k (i + 1) c v

/-- `sample_pagerank(corpus, damping_factor, n)` from the source.  The
initial `[1/len(corpus)] * len(corpus)` raises `ZeroDivisionError` on an
empty corpus; the first page is drawn uniformly (stream index 0); the
loop body runs `n` times (`range(n)` is empty for `n ≤ 0`); the final
`visited[webpage] / n` raises `ZeroDivisionError` when `n = 0`. -/
def sample_pagerank (corpus : Corpus) (damping_factor : ℚ) (n : ℤ)
    (stream : ℕ → ℕ) : Except PyErr (List (Page × ℚ)) :=
  if corpus.length = 0 then .error .zeroDivisionError
  else
    match sampleSteps corpus damping_factor stream n.toNat 1
        (randomChoice stream 0 (keys corpus))
        ((keys corpus).map (fun w => (w, 0))) with
    | .error e => .error e
    | .ok v =>
        if n = 0 then .error .zeroDivisionError
        else .ok (v.map (fun kv => (kv.1, (kv.2 : ℚ) / (n : ℚ))))

/-- `iterate_pagerank(corpus, damping_factor)` from the source: the body
is `raise NotImplementedError`. -/
def iterate_pagerank (_corpus : Corpus) (_damping_factor : ℚ) :
    Except PyErr (List (Page × ℚ)) :=
  .error .notImplementedError

/-- The pure core of `crawl(directory)`: the filesystem walk and regex
link extraction are abstracted as the input `raw` (one entry per `.html`
file, with the list of href targets found in it).  The first pass builds
`pages[filename] = set(links) - {filename}`; the second keeps only links
that are keys of `pages`. -/
def crawlCore (raw : List (Page × List Page)) : Corpus :=
  let pages : Corpus :=
    raw.map (fun kv => (kv.1, kv.2.filter (fun l => decide (l ≠ kv.1))))
  pages.map (fun kv => (kv.1, kv.2.filter (fun l => decide (l ∈ keys pages))))

/-- The Scenario A graph `{"1.html": {"2.html"}, "2.html": {"1.html"}}`. -/
def corpusA : Corpus := [("1.html", ["2.html"]), ("2.html", ["1.html"])]

/-- The Scenario B graph `{"1.html": set(), "2.html": {"1.html"}}`. -/
def corpusB : Corpus := [("1.html", []), ("2.html", ["1.html"])]

/-- The Scenario C single-page graph `{"1.html": set()}`. -/
def corpusC : Corpus := [("1.html", [])]

/-- A sample raw extraction fed to `crawlCore`: `1.html` links to itself,
to `2.html` and to the out-of-corpus `x.html`. -/
def rawExample : List (Page × List Page) :=
  [("1.html", ["1.html", "2.html", "x.html"]), ("2.html", ["1.html"])]

/-! ### Dictionary lemmas -/

theorem dictGet_mem {β : Type} {c : List (Page × β)} {p : Page} {v : β}
    (h : dictGet c p = some v) : (p, v) ∈ c := by
  induction c with
  | nil => simp [dictGet] at h
  | cons kv rest ih =>
      rw [dictGet] at h
      by_cases hk : kv.1 = p
      · rw [if_pos hk] at h
        injection h with h
        exact List.mem_cons.2 (Or.inl (by rw [← hk, ← h]))
      · rw [if_neg hk] at h
        exact List.mem_cons_of_mem _ (ih h)

theorem mem_keys_iff_dictGet {β : Type} {c : List (Page × β)} {p : Page} :
    p ∈ keys c ↔ ∃ v, dictGet c p = some v := by
  induction c with
  | nil => simp [dictGet, keys]
  | cons kv rest ih =>
      by_cases hk : kv.1 = p
      · simp [dictGet, keys, hk]
      · simp only [keys, List.map_cons, List.mem_cons, dictGet, if_neg hk]
        rw [← keys]
        simp only [ih]
        constructor
        · rintro (h | h)
          · exact absurd h.symm hk
          · exact h
        · exact Or.inr

theorem dictGet_map_pair {β : Type} (l : List Page) (f : Page → β) (q : Page) :
    dictGet (l.map (fun w => (w, f w))) q = if q ∈ l then some (f q) else none := by
  induction l with
  | nil => simp [dictGet]
  | cons a l ih =>
      by_cases ha : a = q
      · subst ha
        simp [dictGet]
      · simp only [List.map_cons, dictGet, if_neg ha, ih, List.mem_cons]
        have : ¬ q = a := fun h => ha h.symm
        simp [this]

theorem keys_cons {β : Type} (kv : Page × β) (rest : List (Page × β)) :
    keys (kv :: rest) = kv.1 :: keys rest := rfl

theorem dictGet_append {β : Type} (l₁ l₂ : List (Page × β)) (q : Page) :
    dictGet (l₁ ++ l₂) q = if q ∈ keys l₁ then dictGet l₁ q else dictGet l₂ q := by
  induction l₁ with
  | nil => simp [dictGet, keys]
  | cons kv rest ih =>
      rw [List.cons_append, dictGet, dictGet, keys_cons]
      by_cases hk : kv.1 = q
      · rw [if_pos hk, if_pos (List.mem_cons.2 (Or.inl hk.symm)), if_pos hk]
      · have hq : ¬ q = kv.1 := fun h => hk h.symm
        rw [if_neg hk, if_neg hk, ih]
        by_cases hm : q ∈ keys rest
        · rw [if_pos hm, if_pos (List.mem_cons.2 (Or.inr hm))]
        · rw [if_neg hm, if_neg (by simp [List.mem_cons, hq, hm])]

theorem keys_map_pair {β : Type} (l : List Page) (f : Page → β) :
    keys (l.map (fun w => (w, f w))) = l := by
  simp [keys, List.map_map, Function.comp_def]

theorem keys_map_entry {β γ : Type} (g : Page → β → γ) (l : List (Page × β)) :
    keys (l.map (fun kv => (kv.1, g kv.1 kv.2))) = keys l := by
  simp [keys, List.map_map]

theorem keys_append {β : Type} (l₁ l₂ : List (Page × β)) :
    keys (l₁ ++ l₂) = keys l₁ ++ keys l₂ := by
  simp [keys]

/-- A first match through a key-preserving entry map comes from a first
match in the original dict. -/
theorem dictGet_map_entry {β γ : Type} (g : Page → β → γ) :
    ∀ (l : List (Page × β)) (p : Page) (c : γ),
      dictGet (l.map (fun kv => (kv.1, g kv.1 kv.2))) p = some c →
      ∃ b, dictGet l p = some b ∧ c = g p b := by
  intro l
  induction l with
  | nil => intro p c h; simp [dictGet] at h
  | cons kv rest ih =>
      intro p c h
      simp only [List.map_cons, dictGet] at h ⊢
      by_cases hk : kv.1 = p
      · rw [if_pos hk] at h ⊢
        injection h with h
        exact ⟨kv.2, rfl, by rw [← h, hk]⟩
      · rw [if_neg hk] at h ⊢
        exact ih p c h

theorem valid_links {corpus : Corpus} {p : Page} {links : List Page}
    (hv : ValidCorpus corpus) (h : dictGet corpus p = some links) :
    links.Nodup ∧ (∀ q ∈ links, q ∈ keys corpus) ∧ p ∉ links :=
  hv.2 (p, links) (dictGet_mem h)

/-! ### Unfolding lemmas for `transition_model` -/

theorem transition_model_keyError {corpus : Corpus} {page : Page} {d : ℚ}
    (h : dictGet corpus page = none) :
    transition_model corpus page d = .error .keyError := by
  simp [transition_model, h]

theorem transition_model_dangling {corpus : Corpus} {page : Page} {d : ℚ}
    (h : dictGet corpus page = some []) :
    transition_model corpus page d =
      .ok ((keys corpus).map (fun w => (w, 1 / (corpus.length : ℚ)))) := by
  simp [transition_model, h]

theorem transition_model_normal {corpus : Corpus} {page : Page} {links : List Page}
    {d : ℚ} (h : dictGet corpus page = some links) (hne : links ≠ []) :
    transition_model corpus page d =
      .ok (links.map (fun w =>
            (w, d / (links.length : ℚ) + (1 - d) / (corpus.length : ℚ))) ++
          ((keys corpus).filter (fun w => decide (w ∉ links))).map
            (fun w => (w, (1 - d) / (corpus.length : ℚ)))) := by
  have hlen : links.length ≠ 0 := fun hc => hne (List.length_eq_zero.1 hc)
  simp [transition_model, h, hlen]

/-! ### Counting and summing lemmas -/

theorem snd_sum_map_pair (l : List Page) (c : ℚ) :
    ((l.map (fun w => (w, c))).map Prod.snd).sum = (l.length : ℚ) * c := by
  rw [List.map_map]
  simp [Function.comp_def, List.map_const', List.sum_replicate, nsmul_eq_mul]

theorem length_filter_partition (p : Page → Bool) (l : List Page) :
    (l.filter p).length + (l.filter (fun w => ! p w)).length = l.length := by
  induction l with
  | nil => rfl
  | cons a l ih =>
      cases hpa : p a <;> simp [List.filter_cons, hpa] <;> omega

theorem length_filter_not_mem {ks links : List Page} (hks : ks.Nodup)
    (hl : links.Nodup) (hsub : ∀ q ∈ links, q ∈ ks) :
    (ks.filter (fun w => decide (w ∉ links))).length + links.length = ks.length := by
  have hpart := length_filter_partition (fun w => decide (w ∉ links)) ks
  have hfc : ks.filter (fun w => ! decide (w ∉ links))
      = ks.filter (fun w => decide (w ∈ links)) :=
    List.filter_congr (fun a _ => by simp [decide_not])
  have hperm : List.Perm (ks.filter (fun w => decide (w ∈ links))) links := by
    refine List.perm_of_nodup_nodup_toFinset_eq (hks.filter _) hl ?_
    ext q
    simp only [List.mem_toFinset, List.mem_filter, decide_eq_true_eq]
    exact ⟨fun h => h.2, fun h => ⟨hsub q h, h⟩⟩
  have hlen := hperm.length_eq
  rw [hfc, hlen] at hpart
  exact hpart

/-! ### Claim theorems about `transition_model` -/

/-- C2: for a page whose link set is empty, `transition_model` returns the
uniform distribution giving every page of the corpus probability
`1/len(corpus)` (in particular `1/2` each on the Scenario B graph). -/
theorem dangling_page_uniform {corpus : Corpus} {p : Page} {d : ℚ}
    (hd0 : 0 < d) (hd1 : d < 1) (h : dictGet corpus p = some []) :
    ∃ dist, transition_model corpus p d = .ok dist ∧
      keys dist = keys corpus ∧
      ∀ q ∈ keys corpus, dictGet dist q = some (1 / (corpus.length : ℚ)) := by
  refine ⟨_, transition_model_dangling h, keys_map_pair _ _, ?_⟩
  intro q hq
  rw [dictGet_map_pair, if_pos hq]

/-- Witness for C2 at Scenario B: on `{"1.html": {}, "2.html": {"1.html"}}`
with damping 0.85 and current page `1.html` the result is the uniform
distribution `{"1.html": 1/2, "2.html": 1/2}`. -/
theorem dangling_page_uniform_witness :
    ∃ dist, transition_model corpusB "1.html" (17/20) = .ok dist ∧
      keys dist = keys corpusB ∧
      (dictGet dist "1.html" = some (1/2) ∧ dictGet dist "2.html" = some (1/2)) := by
  obtain ⟨dist, h1, h2, h3⟩ :=
    @dangling_page_uniform corpusB "1.html" (17/20)
      (by norm_num) (by norm_num) rfl
  refine ⟨dist, h1, h2, ?_, ?_⟩
  · have hh := h3 "1.html" (by simp [corpusB, keys])
    norm_num [corpusB] at hh
    exact hh
  · have hh := h3 "2.html" (by simp [corpusB, keys])
    norm_num [corpusB] at hh
    exact hh

/-- C3: for a page with a non-empty link set, `transition_model` gives every
linked page `d/|L(p)| + (1-d)/N`, every other corpus page `(1-d)/N`, and in
particular the current page itself gets `(1-d)/N`. -/
theorem linked_page_probability {corpus : Corpus} {p : Page} {links : List Page}
    {d : ℚ} (hv : ValidCorpus corpus) (h : dictGet corpus p = some links)
    (hne : links ≠ []) (hd0 : 0 < d) (hd1 : d < 1) :
    ∃ dist, transition_model corpus p d = .ok dist ∧
      (∀ q ∈ links, dictGet dist q =
        some (d / (links.length : ℚ) + (1 - d) / (corpus.length : ℚ))) ∧
      (∀ q ∈ keys corpus, q ∉ links →
        dictGet dist q = some ((1 - d) / (corpus.length : ℚ))) ∧
      dictGet dist p = some ((1 - d) / (corpus.length : ℚ)) := by
  obtain ⟨hnd, hsub, hself⟩ := valid_links hv h
  have hgen : ∀ q ∈ keys corpus, q ∉ links →
      dictGet (links.map (fun w =>
          (w, d / (links.length : ℚ) + (1 - d) / (corpus.length : ℚ))) ++
        ((keys corpus).filter (fun w => decide (w ∉ links))).map
          (fun w => (w, (1 - d) / (corpus.length : ℚ)))) q
        = some ((1 - d) / (corpus.length : ℚ)) := by
    intro q hqk hql
    rw [dictGet_append, if_neg (by rw [keys_map_pair]; exact hql), dictGet_map_pair,
      if_pos (by simp [List.mem_filter, hqk, hql])]
  refine ⟨_, transition_model_normal h hne, ?_, hgen,
    hgen p (mem_keys_iff_dictGet.2 ⟨links, h⟩) hself⟩
  intro q hq
  rw [dictGet_append, if_pos (by rw [keys_map_pair]; exact hq), dictGet_map_pair,
    if_pos hq]

/-- Witness for C3 on the Scenario A graph with damping 0.85: the linked
page `2.html` gets `0.85/1 + 0.15/2 = 37/40` and the current page
`1.html` gets `0.15/2 = 3/40`. -/
theorem linked_page_probability_witness :
    ∃ dist, transition_model corpusA "1.html" (17/20) = .ok dist ∧
      dictGet dist "2.html" = some (37/40) ∧ dictGet dist "1.html" = some (3/40) := by
  obtain ⟨dist, h1, h2, _h3, h4⟩ :=
    @linked_page_probability corpusA "1.html" ["2.html"] (17/20)
      (by decide) rfl (by decide) (by norm_num) (by norm_num)
  refine ⟨dist, h1, ?_, ?_⟩
  · have hh := h2 "2.html" (by simp)
    norm_num [corpusA] at hh
    exact hh
  · norm_num [corpusA] at h4
    exact h4

/-- C7: on a non-empty graph `transition_model` fails (with `KeyError`)
exactly when the current page is not a key of the graph, and returns a
mapping whenever the page is a key.  The embedding is pure, so the input
graph is never modified. -/
theorem transition_model_error_iff (corpus : Corpus) (p : Page) (d : ℚ)
    (hne : corpus ≠ []) (hd0 : 0 < d) (hd1 : d < 1) :
    ((∃ dist, transition_model corpus p d = .ok dist) ↔ p ∈ keys corpus) ∧
    (p ∉ keys corpus → transition_model corpus p d = .error .keyError) := by
  have herr : p ∉ keys corpus → transition_model corpus p d = .error .keyError := by
    intro hp
    cases hg : dictGet corpus p with
    | none => exact transition_model_keyError hg
    | some links => exact absurd (mem_keys_iff_dictGet.2 ⟨links, hg⟩) hp
  refine ⟨⟨?_, ?_⟩, herr⟩
  · rintro ⟨dist, hdist⟩
    by_contra hp
    rw [herr hp] at hdist
    exact Except.noConfusion hdist
  · intro hp
    obtain ⟨links, hg⟩ := mem_keys_iff_dictGet.1 hp
    by_cases hl : links = []
    · subst hl
      exact ⟨_, transition_model_dangling hg⟩
    · exact ⟨_, transition_model_normal hg hl⟩

/-- Witness for C7 on the Scenario A graph at a present page. -/
theorem transition_model_error_iff_witness :
    ((∃ dist, transition_model corpusA "1.html" (17/20) = .ok dist) ↔
        "1.html" ∈ keys corpusA) ∧
    ("1.html" ∉ keys corpusA →
      transition_model corpusA "1.html" (17/20) = .error .keyError) :=
  transition_model_error_iff corpusA "1.html" (17/20) (by decide)
    (by norm_num) (by norm_num)

/-- C8 counterexample: with damping factor `2 ∉ (0,1)`, `transition_model`
on the Scenario A graph returns a mapping — with a negative entry — rather
than failing. -/
theorem no_damping_validation_cex :
    transition_model corpusA "1.html" 2 =
      .ok [("2.html", 3/2), ("1.html", -1/2)] := by
  rw [@transition_model_normal corpusA "1.html" ["2.html"] 2 (by decide) (by decide)]
  have h12 : ("1.html" : String) ≠ "2.html" := by decide
  norm_num [corpusA, keys, List.filter_cons, h12]

/-- C8 amended: none of the functions validates the damping factor; in
particular `transition_model` returns a mapping normally for any damping
factor whenever the current page is a key of the graph. -/
theorem transition_model_no_damping_check {corpus : Corpus} {p : Page}
    {links : List Page} {d : ℚ} (h : dictGet corpus p = some links)
    (hd : d ≤ 0 ∨ 1 ≤ d) :
    ∃ dist, transition_model corpus p d = .ok dist := by
  by_cases hl : links = []
  · subst hl
    exact ⟨_, transition_model_dangling h⟩
  · exact ⟨_, transition_model_normal h hl⟩

/-- Witness for the amended C8: damping factor 2 is accepted. -/
theorem transition_model_no_damping_check_witness :
    ∃ dist, transition_model corpusA "1.html" 2 = .ok dist :=
  @transition_model_no_damping_check corpusA "1.html" ["2.html"] 2 rfl
    (Or.inr (by norm_num))

/-- C4: on a valid non-empty graph, for a page that is a key and a damping
factor in (0,1), `transition_model` returns a mapping whose key set is
exactly the graph's pages, with non-negative values summing exactly to 1. -/
theorem transition_model_distribution {corpus : Corpus} {p : Page} {d : ℚ}
    (hv : ValidCorpus corpus) (hne : corpus ≠ []) (hp : p ∈ keys corpus)
    (hd0 : 0 < d) (hd1 : d < 1) :
    ∃ dist, transition_model corpus p d = .ok dist ∧
      (∀ q, q ∈ keys dist ↔ q ∈ keys corpus) ∧
      (∀ kv ∈ dist, 0 ≤ kv.2) ∧
      (dist.map Prod.snd).sum = 1 := by
  have hN : (0:ℚ) < (corpus.length : ℚ) := by
    have h := List.length_pos.2 hne
    exact_mod_cast h
  have hNne : (corpus.length : ℚ) ≠ 0 := ne_of_gt hN
  have h1d : (0:ℚ) ≤ 1 - d := by linarith
  have hkeys : (keys corpus).length = corpus.length := by simp [keys]
  obtain ⟨links, hg⟩ := mem_keys_iff_dictGet.1 hp
  by_cases hl : links = []
  · subst hl
    refine ⟨_, transition_model_dangling hg, ?_, ?_, ?_⟩
    · intro q
      rw [keys_map_pair]
    · intro kv hkv
      obtain ⟨w, hw, rfl⟩ := List.mem_map.1 hkv
      exact div_nonneg zero_le_one hN.le
    · rw [snd_sum_map_pair, hkeys]
      field_simp
  · obtain ⟨hnd, hsub, hself⟩ := valid_links hv hg
    have hL : (0:ℚ) < (links.length : ℚ) := by
      have h := List.length_pos.2 hl
      exact_mod_cast h
    have hLne : (links.length : ℚ) ≠ 0 := ne_of_gt hL
    refine ⟨_, transition_model_normal hg hl, ?_, ?_, ?_⟩
    · intro q
      rw [keys_append, keys_map_pair, keys_map_pair, List.mem_append, List.mem_filter]
      constructor
      · rintro (h | h)
        · exact hsub q h
        · exact h.1
      · intro hq
        by_cases hql : q ∈ links
        · exact Or.inl hql
        · exact Or.inr ⟨hq, by simp [hql]⟩
    · intro kv hkv
      rcases List.mem_append.1 hkv with h | h
      · obtain ⟨w, hw, rfl⟩ := List.mem_map.1 h
        exact add_nonneg (div_nonneg hd0.le hL.le) (div_nonneg h1d hN.le)
      · obtain ⟨w, hw, rfl⟩ := List.mem_map.1 h
        exact div_nonneg h1d hN.le
    · rw [List.map_append, List.sum_append, snd_sum_map_pair, snd_sum_map_pair]
      have hcount := @length_filter_not_mem (keys corpus) links hv.1 hnd hsub
      rw [hkeys] at hcount
      have hF : ((((keys corpus).filter (fun w => decide (w ∉ links))).length : ℚ))
          = (corpus.length : ℚ) - (links.length : ℚ) := by
        have hc := congrArg (fun n : ℕ => (n : ℚ)) hcount
        push_cast at hc
        linarith
      rw [hF]
      field_simp
      ring

/-! ### Claim theorem about `iterate_pagerank` -/

/-- C1 (code bug): the iterative estimator is an unimplemented stub — for
every corpus and damping factor it raises `NotImplementedError` instead of
returning a converged rank mapping. -/
theorem iterate_pagerank_unimplemented :
    ∀ (corpus : Corpus) (d : ℚ),
      iterate_pagerank corpus d = .error .notImplementedError :=
  fun _ _ => rfl

/-! ### Lemmas about the sampling estimator -/

theorem randomChoice_mem (stream : ℕ → ℕ) (i : ℕ) {pop : List Page}
    (h : pop ≠ []) : randomChoice stream i pop ∈ pop := by
  have hlen : 0 < pop.length := List.length_pos.2 h
  have hlt : stream i % pop.length < pop.length := Nat.mod_lt _ hlen
  rw [randomChoice, List.getD_eq_getElem pop "" hlt]
  exact List.getElem_mem hlt

theorem dictIncr_ok {visited : List (Page × ℕ)} {k : Page}
    (h : k ∈ keys visited) :
    ∃ v, dictIncr visited k = .ok v ∧ keys v = keys visited ∧
      (v.map Prod.snd).sum = (visited.map Prod.snd).sum + 1 := by
  induction visited with
  | nil => simp [keys] at h
  | cons kv rest ih =>
      by_cases hk : kv.1 = k
      · refine ⟨(kv.1, kv.2 + 1) :: rest, ?_, ?_, ?_⟩
        · rw [dictIncr, if_pos hk]
        · rw [keys_cons, keys_cons]
        · simp only [List.map_cons, List.sum_cons]
          omega
      · have hk2 : k ∈ keys rest := by
          rw [keys_cons] at h
          rcases List.mem_cons.1 h with hc | hc
          · exact absurd hc.symm hk
          · exact hc
        obtain ⟨v, hv1, hv2, hv3⟩ := ih hk2
        refine ⟨kv :: v, ?_, ?_, ?_⟩
        · rw [dictIncr, if_neg hk, hv1]
        · rw [keys_cons, keys_cons, hv2]
        · simp only [List.map_cons, List.sum_cons, hv3]
          omega

theorem transition_model_keys_mem {corpus : Corpus} {page : Page}
    {links : List Page} {d : ℚ} (hv : ValidCorpus corpus)
    (h : dictGet corpus page = some links) :
    ∃ dist, transition_model corpus page d = .ok dist ∧ keys dist ≠ [] ∧
      ∀ q ∈ keys dist, q ∈ keys corpus := by
  have hpk : page ∈ keys corpus := mem_keys_iff_dictGet.2 ⟨links, h⟩
  by_cases hl : links = []
  · subst hl
    refine ⟨_, transition_model_dangling h, ?_, ?_⟩
    · rw [keys_map_pair]
      exact List.ne_nil_of_mem hpk
    · rw [keys_map_pair]
      exact fun q hq => hq
  · obtain ⟨hnd, hsub, hself⟩ := valid_links hv h
    refine ⟨_, transition_model_normal h hl, ?_, ?_⟩
    · rw [keys_append, keys_map_pair, keys_map_pair]
      intro hc
      exact hl (List.append_eq_nil.1 hc).1
    · intro q hq
      rw [keys_append, keys_map_pair, keys_map_pair, List.mem_append] at hq
      rcases hq with hq | hq
      · exact hsub q hq
      · exact (List.mem_filter.1 hq).1

theorem sampleSteps_ok {corpus : Corpus} {d : ℚ} {stream : ℕ → ℕ}
    (hv : ValidCorpus corpus) :
    ∀ (k i : ℕ) (choice : Page) (visited : List (Page × ℕ)),
      choice ∈ keys corpus → keys visited = keys corpus →
      ∃ v, sampleSteps corpus d stream k i choice visited = .ok v ∧
        keys v = keys corpus ∧
        (v.map Prod.snd).sum = (visited.map Prod.snd).sum + k := by
  intro k
  induction k with
  | zero =>
      intro i choice visited _ hkv
      exact ⟨visited, rfl, hkv, by omega⟩
  | succ k ih =>
      intro i choice visited hc hkv
      obtain ⟨lch, hg⟩ := mem_keys_iff_dictGet.1 hc
      obtain ⟨dist, hdist, hdne, hdsub⟩ :=
        @transition_model_keys_mem corpus choice lch d hv hg
      have hcm : randomChoice stream i (dist.map Prod.fst) ∈ keys dist :=
        randomChoice_mem stream i hdne
      have hck : randomChoice stream i (dist.map Prod.fst) ∈ keys corpus :=
        hdsub _ hcm
      have hcv : randomChoice stream i (dist.map Prod.fst) ∈ keys visited := by
        rw [hkv]
        exact hck
      obtain ⟨v, hv1, hv2, hv3⟩ := dictIncr_ok hcv
      obtain ⟨v2, hs1, hs2, hs3⟩ := ih (i + 1) _ v hck (by rw [hv2, hkv])
      refine ⟨v2, ?_, hs2, ?_⟩
      · have hstep : sampleSteps corpus d stream (k + 1) i choice visited =
            match dictIncr visited (randomChoice stream i (dist.map Prod.fst)) with
            | .error e => .error e
            | .ok v => sampleSteps corpus d stream k (i + 1)
                (randomChoice stream i (dist.map Prod.fst)) v := by
          rw [sampleSteps, hdist]
        rw [hstep, hv1]
        exact hs1
      · rw [hs3, hv3]
        omega

theorem sum_map_div (v : List (Page × ℕ)) (n : ℚ) :
    ((v.map (fun kv => (kv.1, (kv.2 : ℚ) / n))).map Prod.snd).sum
      = (((v.map Prod.snd).sum : ℕ) : ℚ) / n := by
  induction v with
  | nil => simp
  | cons kv rest ih =>
      simp only [List.map_cons, List.sum_cons, ih]
      push_cast
      ring

/-- C5: on a valid non-empty graph, for damping in (0,1), any sample count
`n ≥ 1` and any random stream, `sample_pagerank` returns one value per
page of the graph, every value is a natural visit count divided by `n`,
and the values sum to exactly 1. -/
theorem sample_pagerank_visit_frequencies {corpus : Corpus} {d : ℚ} {n : ℤ}
    {stream : ℕ → ℕ} (hv : ValidCorpus corpus) (hne : corpus ≠ [])
    (hd0 : 0 < d) (hd1 : d < 1) (hn : 1 ≤ n) :
    ∃ pr, sample_pagerank corpus d n stream = .ok pr ∧
      keys pr = keys corpus ∧
      (∀ kv ∈ pr, ∃ c : ℕ, kv.2 = (c : ℚ) / (n : ℚ)) ∧
      (pr.map Prod.snd).sum = 1 := by
  have hlen0 : corpus.length ≠ 0 := fun hc => hne (List.length_eq_zero.1 hc)
  have hkeysne : keys corpus ≠ [] := by
    intro hc
    apply hne
    cases corpus with
    | nil => rfl
    | cons kv rest => exact absurd hc (by simp [keys])
  have hfirst : randomChoice stream 0 (keys corpus) ∈ keys corpus :=
    randomChoice_mem stream 0 hkeysne
  have hvis : keys ((keys corpus).map (fun w => (w, (0:ℕ)))) = keys corpus :=
    keys_map_pair _ _
  obtain ⟨v, hs1, hs2, hs3⟩ := sampleSteps_ok hv n.toNat 1 _ _ hfirst hvis
  have hvsum0 : ((((keys corpus).map (fun w => (w, (0:ℕ)))).map Prod.snd)).sum = 0 := by
    simp [List.map_map, Function.comp_def, List.map_const', List.sum_replicate]
  rw [hvsum0] at hs3
  have hn0 : n ≠ 0 := by omega
  have hnQ : ((n : ℤ) : ℚ) ≠ 0 := by
    have h1 : (1:ℚ) ≤ (n : ℚ) := by exact_mod_cast hn
    linarith
  have hcast : ((n.toNat : ℕ) : ℚ) = ((n : ℤ) : ℚ) := by
    have h2 : ((n.toNat : ℕ) : ℤ) = n := Int.toNat_of_nonneg (by omega)
    exact_mod_cast congrArg (fun z : ℤ => (z : ℚ)) h2
  refine ⟨v.map (fun kv => (kv.1, (kv.2 : ℚ) / (n : ℚ))), ?_, ?_, ?_, ?_⟩
  · rw [sample_pagerank, if_neg hlen0, hs1]
    show (if n = 0 then Except.error PyErr.zeroDivisionError
        else .ok (v.map (fun kv => (kv.1, (kv.2 : ℚ) / (n : ℚ))))) =
      .ok (v.map (fun kv => (kv.1, (kv.2 : ℚ) / (n : ℚ))))
    rw [if_neg hn0]
  · rw [@keys_map_entry ℕ ℚ (fun _ b => (b : ℚ) / (n : ℚ)) v, hs2]
  · intro kv hkv
    obtain ⟨kv0, _hkv0, rfl⟩ := List.mem_map.1 hkv
    exact ⟨kv0.2, rfl⟩
  · rw [sum_map_div, hs3]
    simp only [Nat.zero_add]
    rw [hcast]
    exact div_self hnQ

/-- Witness for C5: a concrete run on the Scenario A graph with `n = 4`. -/
theorem sample_pagerank_visit_frequencies_witness :
    ∃ pr, sample_pagerank corpusA (17/20) 4 (fun i => i) = .ok pr ∧
      keys pr = keys corpusA ∧
      (∀ kv ∈ pr, ∃ c : ℕ, kv.2 = (c : ℚ) / ((4 : ℤ) : ℚ)) ∧
      (pr.map Prod.snd).sum = 1 :=
  sample_pagerank_visit_frequencies (by decide) (by decide) (by norm_num)
    (by norm_num) (by norm_num)

/-- C6 counterexample: with `n = -1` (so `n ≤ 0`) on a non-empty graph,
`sample_pagerank` does not fail — it returns a mapping. -/
theorem sample_pagerank_negative_n_cex :
    sample_pagerank corpusC (17/20) (-1) (fun _ => 0) = .ok [("1.html", 0)] := by
  rw [sample_pagerank, if_neg (by decide)]
  have hstep : sampleSteps corpusC (17/20) (fun _ => 0) ((-1 : ℤ)).toNat 1
      (randomChoice (fun _ => 0) 0 (keys corpusC))
      ((keys corpusC).map (fun w => (w, 0))) = .ok [("1.html", 0)] := rfl
  rw [hstep]
  show (if (-1 : ℤ) = 0 then Except.error PyErr.zeroDivisionError
      else .ok (([("1.html", 0)] : List (Page × ℕ)).map
        (fun kv => (kv.1, (kv.2 : ℚ) / ((-1 : ℤ) : ℚ))))) = _
  rw [if_neg (by decide)]
  norm_num

/-- C6 amended: `sample_pagerank` raises `ZeroDivisionError` — not an
explicit precondition error — when the graph is empty (at the initial
uniform-weights computation) or when `n = 0` (at the final division), but
for `n < 0` it returns an all-zero mapping instead of failing. -/
theorem sample_pagerank_precondition_behavior :
    ∀ (corpus : Corpus) (d : ℚ) (n : ℤ) (stream : ℕ → ℕ),
      (corpus = [] → sample_pagerank corpus d n stream = .error .zeroDivisionError) ∧
      (corpus ≠ [] → n = 0 →
        sample_pagerank corpus d n stream = .error .zeroDivisionError) ∧
      (corpus ≠ [] → n < 0 → sample_pagerank corpus d n stream =
        .ok ((keys corpus).map (fun w => (w, (0:ℚ))))) := by
  intro corpus d n stream
  refine ⟨?_, ?_, ?_⟩
  · intro h
    subst h
    rfl
  · intro hne h0
    have hlen : corpus.length ≠ 0 := fun hc => hne (List.length_eq_zero.1 hc)
    subst h0
    rw [sample_pagerank, if_neg hlen]
    show (if (0 : ℤ) = 0 then Except.error PyErr.zeroDivisionError
        else .ok (((keys corpus).map (fun w => (w, (0:ℕ)))).map
          (fun kv => (kv.1, (kv.2 : ℚ) / ((0 : ℤ) : ℚ))))) = _
    rw [if_pos rfl]
  · intro hne hneg
    have hlen : corpus.length ≠ 0 := fun hc => hne (List.length_eq_zero.1 hc)
    have ht : n.toNat = 0 := Int.toNat_of_nonpos (le_of_lt hneg)
    have hn0 : n ≠ 0 := by omega
    have hstep : sampleSteps corpus d stream 0 1
        (randomChoice stream 0 (keys corpus))
        ((keys corpus).map (fun w => (w, 0))) =
        .ok ((keys corpus).map (fun w => (w, 0))) := rfl
    rw [sample_pagerank, if_neg hlen, ht, hstep]
    show (if n = 0 then Except.error PyErr.zeroDivisionError
        else .ok (((keys corpus).map (fun w => (w, (0:ℕ)))).map
          (fun kv => (kv.1, (kv.2 : ℚ) / (n : ℚ))))) = _
    rw [if_neg hn0]
    simp [List.map_map, Function.comp_def]

/-- Witness for the amended C6: empty graph, `n = 0` and `n = -2`. -/
theorem sample_pagerank_precondition_behavior_witness :
    sample_pagerank [] (17/20) 5 (fun _ => 0) = .error .zeroDivisionError ∧
    sample_pagerank corpusC (17/20) 0 (fun _ => 0) = .error .zeroDivisionError ∧
    sample_pagerank corpusC (17/20) (-2) (fun _ => 0) =
      .ok ((keys corpusC).map (fun w => (w, (0:ℚ)))) :=
  ⟨(sample_pagerank_precondition_behavior [] (17/20) 5 (fun _ => 0)).1 rfl,
   (sample_pagerank_precondition_behavior corpusC (17/20) 0 (fun _ => 0)).2.1
      (by decide) rfl,
   (sample_pagerank_precondition_behavior corpusC (17/20) (-2) (fun _ => 0)).2.2
      (by decide) (by norm_num)⟩

theorem sampleSteps_single (d : ℚ) (stream : ℕ → ℕ) :
    ∀ (k i c : ℕ),
      sampleSteps corpusC d stream k i "1.html" [("1.html", c)] =
        .ok [("1.html", c + k)] := by
  intro k
  induction k with
  | zero =>
      intro i c
      rfl
  | succ k ih =>
      intro i c
      have hih := ih (i + 1) (c + 1)
      rw [show c + 1 + k = c + (k + 1) from by omega] at hih
      have htm : transition_model corpusC "1.html" d =
          .ok ((keys corpusC).map (fun w => (w, 1 / (corpusC.length : ℚ)))) :=
        transition_model_dangling rfl
      rw [sampleSteps, htm]
      simpa [randomChoice, corpusC, keys, Nat.mod_one, dictIncr] using hih

/-- C9 (code bug): on the single-page graph the sampling estimator returns
`{"1.html": 1.0}` for every damping factor in (0,1), sample count `n ≥ 1`
and random stream, while the iterative estimator raises
`NotImplementedError` instead of returning it. -/
theorem single_page_estimators {d : ℚ} {n : ℤ} {stream : ℕ → ℕ}
    (hd0 : 0 < d) (hd1 : d < 1) (hn : 1 ≤ n) :
    sample_pagerank corpusC d n stream = .ok [("1.html", 1)] ∧
    iterate_pagerank corpusC d = .error .notImplementedError := by
  refine ⟨?_, rfl⟩
  have hn0 : n ≠ 0 := by omega
  have hnQ : ((n : ℤ) : ℚ) ≠ 0 := by
    have h1 : (1:ℚ) ≤ (n : ℚ) := by exact_mod_cast hn
    linarith
  have hcast : ((n.toNat : ℕ) : ℚ) = ((n : ℤ) : ℚ) := by
    have h2 : ((n.toNat : ℕ) : ℤ) = n := Int.toNat_of_nonneg (by omega)
    exact_mod_cast congrArg (fun z : ℤ => (z : ℚ)) h2
  have hfirst : randomChoice stream 0 (keys corpusC) = "1.html" := by
    simp [randomChoice, corpusC, keys, Nat.mod_one]
  have hvis : (keys corpusC).map (fun w => (w, (0:ℕ))) = [("1.html", 0)] := rfl
  have hrun := sampleSteps_single d stream n.toNat 1 0
  rw [sample_pagerank, if_neg (by decide), hfirst, hvis, hrun]
  show (if n = 0 then Except.error PyErr.zeroDivisionError
      else .ok (([("1.html", 0 + n.toNat)] : List (Page × ℕ)).map
        (fun kv => (kv.1, (kv.2 : ℚ) / (n : ℚ))))) = _
  rw [if_neg hn0]
  simp [hcast, div_self hnQ]

/-- Witness for C9 at damping 0.85 and `n = 3`. -/
theorem single_page_estimators_witness :
    sample_pagerank corpusC (17/20) 3 (fun _ => 0) = .ok [("1.html", 1)] ∧
    iterate_pagerank corpusC (17/20) = .error .notImplementedError :=
  single_page_estimators (by norm_num) (by norm_num) (by norm_num)

/-! ### Claim theorem about the crawler -/

/-- C10: every graph produced by the crawler core satisfies the Link Graph
invariant consumed by the estimators: no page lists itself among its own
links, and every link target is itself a key of the returned mapping. -/
theorem crawl_invariant :
    ∀ (raw : List (Page × List Page)) (p : Page) (links : List Page),
      dictGet (crawlCore raw) p = some links →
      p ∉ links ∧ ∀ q ∈ links, q ∈ keys (crawlCore raw) := by
  intro raw p links h
  simp only [crawlCore] at h ⊢
  obtain ⟨b1, hb1, hlinks⟩ := dictGet_map_entry
    (fun (_ : Page) (b : List Page) => b.filter (fun l => decide (l ∈
      keys (raw.map (fun kv => (kv.1, kv.2.filter (fun x => decide (x ≠ kv.1)))))))) _ p links h
  obtain ⟨b0, _hb0, hb1eq⟩ := dictGet_map_entry
    (fun (a : Page) (b : List Page) => b.filter (fun x => decide (x ≠ a))) _ p b1 hb1
  constructor
  · intro hp
    rw [hlinks] at hp
    have hp1 : p ∈ b1 := List.mem_of_mem_filter hp
    rw [hb1eq] at hp1
    have := (List.mem_filter.1 hp1).2
    simp at this
  · intro q hq
    rw [hlinks] at hq
    have hmem := (List.mem_filter.1 hq).2
    rw [keys_map_entry (fun (_ : Page) (b : List Page) => b.filter
      (fun l => decide (l ∈ keys (raw.map (fun kv =>
        (kv.1, kv.2.filter (fun x => decide (x ≠ kv.1))))))))]
    exact of_decide_eq_true hmem

/-- Witness for C10 on a concrete raw extraction: the self-link and the
out-of-corpus link of `1.html` are removed, so the invariant holds on the
entry that remains. -/
theorem crawl_invariant_witness :
    "1.html" ∉ ["2.html"] ∧
      ∀ q ∈ ["2.html"], q ∈ keys (crawlCore rawExample) :=
  crawl_invariant rawExample "1.html" ["2.html"] (by decide)

/-- Witness for C4 on the Scenario A graph at damping 0.85. -/
theorem transition_model_distribution_witness :
    ∃ dist, transition_model corpusA "1.html" (17/20) = .ok dist ∧
      (∀ q, q ∈ keys dist ↔ q ∈ keys corpusA) ∧
      (∀ kv ∈ dist, 0 ≤ kv.2) ∧
      (dist.map Prod.snd).sum = 1 :=
  transition_model_distribution (by decide) (by decide) (by decide)
    (by norm_num) (by norm_num)

end PageRank
